import Mathlib

/-!
# request-summary: aggregation and dispatch of `main.go`

A shallow embedding of `src/main.go`:

* `apiCall` (lines 113-144) as a function from the result of the HTTP
  transport and the measured latency to the channel after its single send;
* the goroutine structure of `main` (lines 56-76) as a step function on a
  `RunState`, driven by a schedule of `Event`s;
* the aggregation loop and the construction of the `Summary`
  (lines 77-108) as `aggregate` and `mainSummary`.

Go's `int` and `time.Duration` are 64-bit signed integers: they are modelled
as `Int` with an explicit two's-complement wrap on every addition. `float64`
is modelled by exact rationals extended with the IEEE infinities and NaN
(rounding and the sign of zero are not modelled).
-/

namespace RequestSummary

/-! ## Machine integers and floats -/

/-- Two's-complement wrap of an integer into the range of a Go `int64`. -/
def wrap64 (x : Int) : Int := (x + 2 ^ 63) % 2 ^ 64 - 2 ^ 63

/-- Addition of Go `int` / `time.Duration` values. -/
def add64 (a b : Int) : Int := wrap64 (a + b)

/-- The type `time.Duration`: a count of nanoseconds. -/
abbrev time.Duration := Int

/-- The constant `time.Millisecond`. -/
def time.Millisecond : time.Duration := 1000000

/-- The constant `time.Second`. -/
def time.Second : time.Duration := 1000000000

/-- Values of `float64`: a finite value, an infinity with its sign, or NaN. -/
inductive F64 where
  | fin (q : ℚ)
  | inf (neg : Bool)
  | nan
  deriving DecidableEq

namespace F64

/-- The conversion `float64(n)` of an integer. -/
def ofInt (n : Int) : F64 := fin n

/-- Division of `float64` values; it never faults, a zero divisor gives an
infinity or NaN. -/
def div : F64 → F64 → F64
  | nan, _ => nan
  | _, nan => nan
  | inf _, inf _ => nan
  | inf s, fin b => inf (xor s (decide (b < 0)))
  | fin _, inf _ => fin 0
  | fin a, fin b =>
    if b = 0 then (if a = 0 then nan else inf (decide (a < 0))) else fin (a / b)

/-- Multiplication of `float64` values. -/
def mul : F64 → F64 → F64
  | nan, _ => nan
  | _, nan => nan
  | inf s, inf t => inf (xor s t)
  | inf s, fin b => if b = 0 then nan else inf (xor s (decide (b < 0)))
  | fin a, inf t => if a = 0 then nan else inf (xor t (decide (a < 0)))
  | fin a, fin b => fin (a * b)

end F64

/-- The method `Duration.Seconds`: the duration as a number of seconds. -/
def time.Duration.Seconds (d : time.Duration) : F64 := F64.fin ((d : ℚ) / 1000000000)

/-! ## Data model (lines 34-50) -/

/-- The struct `Summary`. -/
structure Summary where
  Success : F64
  RPS : F64
  Requests : Int
  Errors : Int
  Bytes : Int
  Duration : time.Duration
  Fastest : time.Duration
  Slowest : time.Duration
  deriving DecidableEq

/-- The struct `HTTPResponse`: the outcome of one request. -/
structure HTTPResponse where
  Success : Int
  Errors : Int
  Bytes : Int
  Duration : time.Duration
  deriving DecidableEq, Repr

/-- Runtime panics that `main` can raise. -/
inductive Panic where
  | makechanSizeOutOfRange
  | integerDivideByZero
  deriving DecidableEq, Repr

/-! ## `apiCall` (lines 113-144) -/

/-- A response of the HTTP transport: status code and the body bytes read by
`io.ReadAll`. -/
structure Response where
  StatusCode : Int
  Body : List UInt8
  deriving DecidableEq

/-- The result `(res, err)` of `http.DefaultClient.Do`. -/
inductive DoResult where
  | err
  | ok (res : Response)
  deriving DecidableEq

/-- The constant `http.StatusOK`. -/
def StatusOK : Int := 200

/-- The value of `response` that `apiCall` sends, given the transport result
and the latency `time.Since(st)` measured on the path taken. -/
def apiCallResponse (r : DoResult) (since : time.Duration) : HTTPResponse :=
  let response : HTTPResponse := ⟨0, 0, 0, 0⟩
  match r with
  | .err =>
    let response := { response with Success := 0 }
    let response := { response with Errors := 1 }
    let response := { response with Duration := since }
    let response := { response with Bytes := 0 }
    response
  | .ok res =>
    let response := { response with Bytes := (res.Body.length : Int) }
    let response :=
      if res.StatusCode = StatusOK then { response with Success := 1 }
      else { response with Errors := 1 }
    let response := { response with Duration := since }
    response

/-- The function `apiCall`, as its effect on the sequence of values sent on
`ch`: the error path sends on line 129 and returns, the other path sends on
line 142. -/
def apiCall (r : DoResult) (since : time.Duration) (ch : List HTTPResponse) :
    List HTTPResponse :=
  match r with
  | .err => ch ++ [apiCallResponse r since]
  | .ok _ => ch ++ [apiCallResponse r since]

/-! ## Aggregation and summary (lines 77-108) -/

/-- The local variables of the aggregation loop. -/
structure Totals where
  slowest : time.Duration
  fastest : time.Duration
  success : Int
  errors : Int
  bytes : Int
  dur : time.Duration
  total : time.Duration
  deriving DecidableEq, Repr

/-- The initial values of lines 77-80. -/
def Totals.init : Totals :=
  { slowest := 0 * time.Second
    fastest := 1000000 * time.Second
    success := 0, errors := 0, bytes := 0, dur := 0, total := 0 }

/-- One iteration of the loop body, lines 82-91. -/
def aggregateStep (t : Totals) (out : HTTPResponse) : Totals :=
  let t := { t with success := add64 t.success out.Success }
  let t := { t with errors := add64 t.errors out.Errors }
  let t := { t with bytes := add64 t.bytes out.Bytes }
  let t := { t with dur := add64 t.dur out.Duration }
  let t :=
    if out.Duration < t.fastest then { t with fastest := out.Duration }
    else { t with slowest := out.Duration }
  { t with total := add64 t.total out.Duration }

/-- The loop of lines 81-92 over the collected outcomes, in arrival order. -/
def aggregate (outArr : List HTTPResponse) : Totals :=
  outArr.foldl aggregateStep Totals.init

/-- Lines 77-108 of `main`: the `Summary` built from the collected outcomes
`outArr`, the flag value `numRequest` and the wall-clock time `elapsed`
returned by `time.Since(initialTime)`. The integer division of line 105
panics when no outcome was collected. -/
def mainSummary (numRequest : Int) (outArr : List HTTPResponse)
    (elapsed : time.Duration) : Except Panic Summary :=
  let t := aggregate outArr
  let successPer := F64.mul (F64.div (F64.ofInt t.success) (F64.ofInt numRequest)) (F64.fin 100)
  let rps := F64.div (F64.ofInt outArr.length) (time.Duration.Seconds elapsed)
  if (outArr.length : Int) = 0 then .error Panic.integerDivideByZero
  else
    .ok { Success := successPer
          Requests := outArr.length
          RPS := rps
          Errors := t.errors
          Bytes := t.bytes
          Duration := Int.tdiv t.total outArr.length
          Fastest := t.fastest
          Slowest := t.slowest }

/-! ## Goroutine structure of `main` (lines 56-76) -/

/-- The state of a run: the dispatch loop counter `i`, the `WaitGroup`
counter, the number of `apiCall` goroutines that were started and have not
returned, the values buffered in `ch`, the slice `res` of the collecting
goroutine, and whether `ch` was closed. -/
structure RunState where
  i : Int
  wg : Nat
  inFlight : Nat
  ch : List HTTPResponse
  res : List HTTPResponse
  closed : Bool
  deriving DecidableEq

/-- The scheduling events of a run: one iteration of the dispatch loop
(lines 69-72), the completion of one `apiCall` with the result of its
transport and its latency, one receive of the collecting goroutine
(lines 63-64), and the `close(ch)` that follows `wg.Wait()` (lines 73-75). -/
inductive Event where
  | dispatch
  | finish (r : DoResult) (since : time.Duration)
  | receive
  | close
  deriving DecidableEq

/-- Lines 56-60: `make(chan HTTPResponse, *threads)` panics on a negative
size; otherwise the run starts with nothing dispatched. -/
def start (threads : Int) : Except Panic RunState :=
  if threads < 0 then .error Panic.makechanSizeOutOfRange
  else .ok { i := 0, wg := 0, inFlight := 0, ch := [], res := [], closed := false }

/-- One event of a run, `none` when the event is not enabled.
* `dispatch`: `wg.Add(1); go apiCall(&wg, ch)` while `i < *numRequest`; the
  `go` statement does not wait for anything.
* `finish`: a running `apiCall` sends its response and returns (`wg.Done`).
  The send needs room in the buffer of `ch`, or, with an empty buffer, is
  handed to the collecting goroutine waiting in `range ch`.
* `receive`: the collecting goroutine takes the oldest buffered value.
* `close`: the loop has ended and `wg.Wait()` returns, then `close(ch)`. -/
def step (numRequest threads : Int) (s : RunState) : Event → Option RunState
  | .dispatch =>
    if s.i < numRequest then
      some { s with i := s.i + 1, wg := s.wg + 1, inFlight := s.inFlight + 1 }
    else none
  | .finish r since =>
    if s.inFlight = 0 then none
    else if (s.ch.length : Int) < threads then
      some { s with ch := apiCall r since s.ch, wg := s.wg - 1, inFlight := s.inFlight - 1 }
    else if s.ch = [] then
      some { s with res := s.res ++ apiCall r since [], wg := s.wg - 1,
                    inFlight := s.inFlight - 1 }
    else none
  | .receive =>
    match s.ch with
    | [] => none
    | data :: rest => some { s with ch := rest, res := s.res ++ [data] }
  | .close =>
    if ¬ s.i < numRequest ∧ s.wg = 0 ∧ s.closed = false then
      some { s with closed := true }
    else none

/-- A run along a schedule of events. -/
def run (numRequest threads : Int) (s : RunState) : List Event → Option RunState
  | [] => some s
  | e :: es => (step numRequest threads s e).bind fun s1 => run numRequest threads s1 es

/-- Line 76, `outArr := <-out`: the collecting goroutine delivers `res` once
`ch` is closed and drained. -/
def outArr (s : RunState) : Option (List HTTPResponse) :=
  if s.closed = true ∧ s.ch = [] then some s.res else none

/-- The function `main` along a schedule: `none` when the schedule is not a
complete run, otherwise the panic or the `Summary` that `main` ends with. -/
def main (numRequest threads : Int) (schedule : List Event)
    (elapsed : time.Duration) : Option (Except Panic Summary) :=
  match start threads with
  | .error p => some (.error p)
  | .ok s0 =>
    (run numRequest threads s0 schedule).bind fun s =>
      (outArr s).map fun out => mainSummary numRequest out elapsed


/-! ## Auxiliary definitions of the proofs -/

/-- The update of `fastest` in one iteration. -/
def fastestStep (m : time.Duration) (o : HTTPResponse) : time.Duration :=
  if o.Duration < m then o.Duration else m

/-- The invariant of a run: the `WaitGroup` counts the executors in flight,
every dispatched request is in flight, buffered or collected, and the channel
is closed only after the loop has ended and every executor has returned. -/
def RunInv (numRequest : Int) (s : RunState) : Prop :=
  s.wg = s.inFlight
    ∧ 0 ≤ s.i ∧ s.i ≤ max numRequest 0
    ∧ (s.inFlight : Int) + s.ch.length + s.res.length = s.i
    ∧ (s.closed = true → numRequest ≤ s.i ∧ s.inFlight = 0)

instance (numRequest : Int) (s : RunState) : Decidable (RunInv numRequest s) := by
  unfold RunInv
  infer_instance

/-- The schedule that runs the requests one at a time: dispatch, completion
with the given transport result and latency, and, on a buffered channel, the
receive of the collecting goroutine; then the close of the channel. -/
def seqEvents (threads : Int) : List (DoResult × time.Duration) → List Event
  | [] => [Event.close]
  | p :: rest =>
    Event.dispatch :: Event.finish p.1 p.2 ::
      (if 0 < threads then Event.receive :: seqEvents threads rest
       else seqEvents threads rest)

/-- The outcomes sent by the `apiCall` completions of a schedule, in the
order of their sends. -/
def emitted : List Event → List HTTPResponse
  | [] => []
  | Event.finish r since :: es => apiCall r since [] ++ emitted es
  | Event.dispatch :: es => emitted es
  | Event.receive :: es => emitted es
  | Event.close :: es => emitted es

/-! ## Arithmetic of wrapped sums -/

theorem wrap64_of_range (x : Int) (hlo : -(2 ^ 63) ≤ x) (hhi : x < 2 ^ 63) :
    wrap64 x = x := by
  unfold wrap64
  omega

theorem wrap64_range (x : Int) : -(2 ^ 63) ≤ wrap64 x ∧ wrap64 x < 2 ^ 63 := by
  unfold wrap64
  omega

theorem wrap64_add_left (a b : Int) : wrap64 (wrap64 a + b) = wrap64 (a + b) := by
  unfold wrap64
  omega

/-- A fold of wrapped additions is the wrap of the exact sum. -/
theorem foldl_add64 (f : HTTPResponse → Int) (outs : List HTTPResponse) (a : Int)
    (hlo : -(2 ^ 63) ≤ a) (hhi : a < 2 ^ 63) :
    outs.foldl (fun acc o => add64 acc (f o)) a = wrap64 (a + (outs.map f).sum) := by
  induction outs generalizing a with
  | nil => simp [wrap64_of_range a hlo hhi]
  | cons o rest ih =>
    simp only [List.foldl_cons, List.map_cons, List.sum_cons]
    rw [ih (add64 a (f o)) (wrap64_range _).1 (wrap64_range _).2]
    unfold add64
    rw [wrap64_add_left, add_assoc]

/-! ## Projections of the aggregation loop -/

theorem foldl_success (outs : List HTTPResponse) (t : Totals) :
    (outs.foldl aggregateStep t).success
      = outs.foldl (fun acc o => add64 acc o.Success) t.success := by
  induction outs generalizing t with
  | nil => rfl
  | cons o rest ih =>
    simp only [List.foldl_cons]
    rw [ih]
    simp only [aggregateStep]
    split <;> rfl

theorem foldl_errors (outs : List HTTPResponse) (t : Totals) :
    (outs.foldl aggregateStep t).errors
      = outs.foldl (fun acc o => add64 acc o.Errors) t.errors := by
  induction outs generalizing t with
  | nil => rfl
  | cons o rest ih =>
    simp only [List.foldl_cons]
    rw [ih]
    simp only [aggregateStep]
    split <;> rfl

theorem foldl_bytes (outs : List HTTPResponse) (t : Totals) :
    (outs.foldl aggregateStep t).bytes
      = outs.foldl (fun acc o => add64 acc o.Bytes) t.bytes := by
  induction outs generalizing t with
  | nil => rfl
  | cons o rest ih =>
    simp only [List.foldl_cons]
    rw [ih]
    simp only [aggregateStep]
    split <;> rfl

theorem foldl_total (outs : List HTTPResponse) (t : Totals) :
    (outs.foldl aggregateStep t).total
      = outs.foldl (fun acc o => add64 acc o.Duration) t.total := by
  induction outs generalizing t with
  | nil => rfl
  | cons o rest ih =>
    simp only [List.foldl_cons]
    rw [ih]
    simp only [aggregateStep]
    split <;> rfl

theorem foldl_fastest (outs : List HTTPResponse) (t : Totals) :
    (outs.foldl aggregateStep t).fastest = outs.foldl fastestStep t.fastest := by
  induction outs generalizing t with
  | nil => rfl
  | cons o rest ih =>
    simp only [List.foldl_cons]
    rw [ih]
    simp only [aggregateStep, fastestStep]
    split <;> rfl

theorem fastestStep_right_comm (m : time.Duration) (a b : HTTPResponse) :
    fastestStep (fastestStep m a) b = fastestStep (fastestStep m b) a := by
  unfold fastestStep
  split_ifs <;> first | rfl | (exfalso; linarith) | linarith

/-- The fold of `fastestStep` is a lower bound of its start value and of
every latency, and it is one of them. -/
theorem foldl_fastestStep_spec (outs : List HTTPResponse) (m : time.Duration) :
    outs.foldl fastestStep m ≤ m
      ∧ (∀ o ∈ outs, outs.foldl fastestStep m ≤ o.Duration)
      ∧ (outs.foldl fastestStep m = m
          ∨ ∃ o ∈ outs, outs.foldl fastestStep m = o.Duration) := by
  induction outs generalizing m with
  | nil => simp
  | cons o rest ih =>
    simp only [List.foldl_cons]
    obtain ⟨h1, h2, h3⟩ := ih (fastestStep m o)
    have hstep : fastestStep m o ≤ m ∧ fastestStep m o ≤ o.Duration
        ∧ (fastestStep m o = m ∨ fastestStep m o = o.Duration) := by
      unfold fastestStep
      split_ifs with h
      · exact ⟨le_of_lt h, le_refl _, Or.inr rfl⟩
      · exact ⟨le_refl _, not_lt.mp h, Or.inl rfl⟩
    refine ⟨le_trans h1 hstep.1, ?_, ?_⟩
    · intro x hx
      rcases List.mem_cons.mp hx with rfl | hx
      · exact le_trans h1 hstep.2.1
      · exact h2 x hx
    · rcases h3 with h3 | ⟨x, hx, h3⟩
      · rcases hstep.2.2 with h4 | h4
        · left; rw [h3, h4]
        · right; exact ⟨o, List.mem_cons_self _ _, by rw [h3, h4]⟩
      · right; exact ⟨x, List.mem_cons_of_mem _ hx, h3⟩

/-! ## The summary of a non-empty run -/

/-- With at least one collected outcome `mainSummary` does not panic and
returns the record of lines 99-108. -/
theorem mainSummary_ok (numRequest : Int) (outs : List HTTPResponse)
    (elapsed : time.Duration) (hne : outs ≠ []) :
    mainSummary numRequest outs elapsed = .ok
      { Success := F64.mul (F64.div (F64.ofInt (aggregate outs).success)
            (F64.ofInt numRequest)) (F64.fin 100)
        Requests := outs.length
        RPS := F64.div (F64.ofInt outs.length) (time.Duration.Seconds elapsed)
        Errors := (aggregate outs).errors
        Bytes := (aggregate outs).bytes
        Duration := Int.tdiv (aggregate outs).total outs.length
        Fastest := (aggregate outs).fastest
        Slowest := (aggregate outs).slowest } := by
  have hlen : ¬ ((outs.length : Int) = 0) := by
    cases outs with
    | nil => exact absurd rfl hne
    | cons o rest => simp only [List.length_cons]; omega
  simp only [mainSummary, hlen, if_false]

theorem aggregate_success (outs : List HTTPResponse) :
    (aggregate outs).success = wrap64 ((outs.map (fun o => o.Success)).sum) := by
  unfold aggregate
  rw [foldl_success, foldl_add64 (fun o => o.Success) outs _ (by decide) (by decide)]
  simp [Totals.init]

theorem aggregate_errors (outs : List HTTPResponse) :
    (aggregate outs).errors = wrap64 ((outs.map (fun o => o.Errors)).sum) := by
  unfold aggregate
  rw [foldl_errors, foldl_add64 (fun o => o.Errors) outs _ (by decide) (by decide)]
  simp [Totals.init]

theorem aggregate_bytes (outs : List HTTPResponse) :
    (aggregate outs).bytes = wrap64 ((outs.map (fun o => o.Bytes)).sum) := by
  unfold aggregate
  rw [foldl_bytes, foldl_add64 (fun o => o.Bytes) outs _ (by decide) (by decide)]
  simp [Totals.init]

theorem aggregate_total (outs : List HTTPResponse) :
    (aggregate outs).total = wrap64 ((outs.map (fun o => o.Duration)).sum) := by
  unfold aggregate
  rw [foldl_total, foldl_add64 (fun o => o.Duration) outs _ (by decide) (by decide)]
  simp [Totals.init]

theorem aggregate_fastest (outs : List HTTPResponse) :
    (aggregate outs).fastest = outs.foldl fastestStep (1000000 * time.Second) := by
  unfold aggregate
  rw [foldl_fastest]
  rfl

/-- The sum of the `Success` fields of 0/1 outcomes counts the successes. -/
theorem sum_success_eq_count (outs : List HTTPResponse)
    (hvalid : ∀ o ∈ outs, o.Success = 0 ∨ o.Success = 1) :
    (outs.map (fun o => o.Success)).sum
      = ((outs.filter (fun o => decide (o.Success = 1))).length : Int) := by
  induction outs with
  | nil => rfl
  | cons o rest ih =>
    have hrest := ih (fun x hx => hvalid x (List.mem_cons_of_mem _ hx))
    simp only [List.map_cons, List.sum_cons, hrest, List.filter_cons]
    rcases hvalid o (List.mem_cons_self _ _) with h | h
    · simp [h]
    · simp [h]; omega

/-- The sums of the permutation-invariant fields do not depend on the order
of arrival. -/
theorem aggregate_perm (outs1 outs2 : List HTTPResponse) (hperm : outs1.Perm outs2) :
    (aggregate outs1).success = (aggregate outs2).success
      ∧ (aggregate outs1).errors = (aggregate outs2).errors
      ∧ (aggregate outs1).bytes = (aggregate outs2).bytes
      ∧ (aggregate outs1).total = (aggregate outs2).total
      ∧ (aggregate outs1).fastest = (aggregate outs2).fastest := by
  refine ⟨?_, ?_, ?_, ?_, ?_⟩
  · rw [aggregate_success, aggregate_success, (hperm.map _).sum_eq]
  · rw [aggregate_errors, aggregate_errors, (hperm.map _).sum_eq]
  · rw [aggregate_bytes, aggregate_bytes, (hperm.map _).sum_eq]
  · rw [aggregate_total, aggregate_total, (hperm.map _).sum_eq]
  · rw [aggregate_fastest, aggregate_fastest]
    exact List.Perm.foldl_eq' hperm (fun x _ y _ z => fastestStep_right_comm z x y) _

/-- Every field of the `Summary` other than `Slowest` and `RPS` is the same
for two arrival orders of the same outcomes (and `RPS` is, too, when the
elapsed time is the same). -/
theorem mainSummary_perm_fields (numRequest : Int) (outs1 outs2 : List HTTPResponse)
    (elapsed : time.Duration) (hne : outs1 ≠ []) (hperm : outs1.Perm outs2) :
    ∃ s1 s2, mainSummary numRequest outs1 elapsed = .ok s1
      ∧ mainSummary numRequest outs2 elapsed = .ok s2
      ∧ s1.Success = s2.Success ∧ s1.Requests = s2.Requests ∧ s1.Errors = s2.Errors
      ∧ s1.Bytes = s2.Bytes ∧ s1.Duration = s2.Duration ∧ s1.Fastest = s2.Fastest := by
  have hne2 : outs2 ≠ [] := fun h => hne (by simpa [h] using hperm)
  obtain ⟨h1, h2, h3, h4, h5⟩ := aggregate_perm outs1 outs2 hperm
  refine ⟨_, _, mainSummary_ok numRequest outs1 elapsed hne,
    mainSummary_ok numRequest outs2 elapsed hne2, ?_, ?_, ?_, ?_, ?_, ?_⟩
  · simp only [h1]
  · simp only [hperm.length_eq]
  · exact h2
  · exact h3
  · simp only [h4, hperm.length_eq]
  · exact h5


/-! ## Claims about `apiCall` -/

/-- C6: whatever the HTTP transport returns (an error, or a response with
any status code and body), `apiCall` appends exactly one outcome to the
channel; that outcome has `Success + Errors = 1` with both fields 0 or 1, and
`Success = 1` exactly when there was no transport error and the status code
is 200. -/
theorem apiCall_emits_one_outcome (r : DoResult) (since : time.Duration)
    (ch : List HTTPResponse) :
    ∃ o, apiCall r since ch = ch ++ [o]
      ∧ o.Success + o.Errors = 1
      ∧ (o.Success = 0 ∨ o.Success = 1)
      ∧ (o.Success = 1 ↔ ∃ res, r = DoResult.ok res ∧ res.StatusCode = 200) := by
  cases r with
  | err =>
    refine ⟨apiCallResponse DoResult.err since, rfl, by simp [apiCallResponse],
      by simp [apiCallResponse], ?_⟩
    simp [apiCallResponse]
  | ok res =>
    refine ⟨apiCallResponse (DoResult.ok res) since, rfl, ?_, ?_, ?_⟩
    · by_cases h : res.StatusCode = StatusOK <;> simp [apiCallResponse, h]
    · by_cases h : res.StatusCode = StatusOK <;> simp [apiCallResponse, h]
    · by_cases h : res.StatusCode = StatusOK
      · simp [apiCallResponse, h, StatusOK]
      · have h2 : ¬ res.StatusCode = 200 := h
        simp [apiCallResponse, h, h2]

/-- The percentage of line 94 on a non-zero request count. -/
theorem f64_percent (a b : Int) (hb : b ≠ 0) :
    F64.mul (F64.div (F64.ofInt a) (F64.ofInt b)) (F64.fin 100)
      = F64.fin ((a : ℚ) / (b : ℚ) * 100) := by
  have hb2 : ¬ ((b : ℚ) = 0) := by exact_mod_cast hb
  simp [F64.ofInt, F64.div, F64.mul, hb2]

/-! ## Claims about the summary -/

/-- C4: for every request count `numRequest ≥ 1` and every non-empty list of
outcomes whose `Success` and `Errors` are 0/1 with `Success + Errors = 1`,
the summary is produced and `Summary.Success` is exactly
`100 * (number of outcomes with Success = 1) / numRequest`: the denominator
is the dispatched count, in particular when the list has `numRequest`
elements. -/
theorem success_rate_exact (numRequest : Int) (outs : List HTTPResponse)
    (elapsed : time.Duration) (hN : 1 ≤ numRequest) (hne : outs ≠ [])
    (hmax : (outs.length : Int) < 2 ^ 63)
    (hvalid : ∀ o ∈ outs, o.Success + o.Errors = 1 ∧ (o.Success = 0 ∨ o.Success = 1)) :
    ∃ s, mainSummary numRequest outs elapsed = .ok s
      ∧ s.Success = F64.fin
          (100 * ((outs.filter (fun o => decide (o.Success = 1))).length : ℚ)
            / (numRequest : ℚ)) := by
  refine ⟨_, mainSummary_ok numRequest outs elapsed hne, ?_⟩
  have hcount := sum_success_eq_count outs (fun o ho => (hvalid o ho).2)
  have hle : (outs.filter (fun o => decide (o.Success = 1))).length ≤ outs.length :=
    List.length_filter_le _ _
  have hsucc : (aggregate outs).success
      = ((outs.filter (fun o => decide (o.Success = 1))).length : Int) := by
    rw [aggregate_success, hcount]
    apply wrap64_of_range <;> omega
  simp only [hsucc]
  rw [f64_percent _ _ (by omega)]
  congr 1
  push_cast
  ring

theorem success_rate_exact_witness :
    ∃ s, mainSummary 4 [⟨1, 0, 27, 12⟩, ⟨0, 1, 0, 7⟩, ⟨1, 0, 27, 9⟩, ⟨1, 0, 27, 30⟩]
        time.Second = .ok s
      ∧ s.Success = F64.fin
          (100 * ((([⟨1, 0, 27, 12⟩, ⟨0, 1, 0, 7⟩, ⟨1, 0, 27, 9⟩, ⟨1, 0, 27, 30⟩] :
              List HTTPResponse).filter (fun o => decide (o.Success = 1))).length : ℚ)
            / ((4 : Int) : ℚ)) :=
  success_rate_exact 4 [⟨1, 0, 27, 12⟩, ⟨0, 1, 0, 7⟩, ⟨1, 0, 27, 9⟩, ⟨1, 0, 27, 30⟩]
    time.Second (by decide) (by decide) (by decide) (by decide)


theorem sum_map_err_success (sinces : List time.Duration) :
    ((sinces.map (apiCallResponse DoResult.err)).map (fun o => o.Success)).sum = 0 := by
  induction sinces with
  | nil => rfl
  | cons d rest ih =>
    simp only [List.map_cons, List.sum_cons, ih]
    rfl

theorem sum_map_err_bytes (sinces : List time.Duration) :
    ((sinces.map (apiCallResponse DoResult.err)).map (fun o => o.Bytes)).sum = 0 := by
  induction sinces with
  | nil => rfl
  | cons d rest ih =>
    simp only [List.map_cons, List.sum_cons, ih]
    rfl

theorem sum_map_err_errors (sinces : List time.Duration) :
    ((sinces.map (apiCallResponse DoResult.err)).map (fun o => o.Errors)).sum
      = (sinces.length : Int) := by
  induction sinces with
  | nil => rfl
  | cons d rest ih =>
    simp only [List.map_cons, List.sum_cons, List.length_cons, ih]
    simp only [apiCallResponse]
    push_cast
    ring

/-- The summary of `N ≥ 1` outcomes of the error path of `apiCall`. -/
theorem mainSummary_all_err (N : Nat) (sinces : List time.Duration)
    (elapsed : time.Duration) (hN : 1 ≤ N) (hmax : (N : Int) < 2 ^ 63)
    (hlen : sinces.length = N) :
    ∃ s, mainSummary N (sinces.map (apiCallResponse DoResult.err)) elapsed = .ok s
      ∧ s.Success = F64.fin 0 ∧ s.Errors = N ∧ s.Requests = N ∧ s.Bytes = 0 := by
  have hne : sinces.map (apiCallResponse DoResult.err) ≠ [] := by
    intro h
    have h0 : sinces.length = 0 := by
      simpa using congrArg List.length h
    omega
  refine ⟨_, mainSummary_ok _ _ elapsed hne, ?_, ?_, ?_, ?_⟩
  · simp only [aggregate_success, sum_map_err_success]
    rw [wrap64_of_range 0 (by decide) (by decide), f64_percent _ _ (by omega)]
    simp
  · simp only [aggregate_errors, sum_map_err_errors, hlen]
    apply wrap64_of_range <;> omega
  · simp [hlen]
  · simp only [aggregate_bytes, sum_map_err_bytes]
    exact wrap64_of_range 0 (by decide) (by decide)

/-- The field `Fastest` is never above a collected latency: the first branch
of lines 86-90 is a true minimum. -/
theorem fastest_le_every_latency (numRequest : Int) (outs : List HTTPResponse)
    (elapsed : time.Duration) (hne : outs ≠ []) :
    ∃ s, mainSummary numRequest outs elapsed = .ok s
      ∧ ∀ o ∈ outs, s.Fastest ≤ o.Duration := by
  refine ⟨_, mainSummary_ok numRequest outs elapsed hne, ?_⟩
  intro o ho
  simp only [aggregate_fastest]
  exact (foldl_fastestStep_spec outs _).2.1 o ho

/-- C10, amended: for every list of outcomes with at least one latency not
above the initial value 1000000 s of `fastest`, in any arrival order, the
summary is produced and `Summary.Fastest` is the minimum latency of the
list: it is the latency of a collected outcome and a lower bound of all of
them. -/
theorem fastest_is_minimum (numRequest : Int) (outs : List HTTPResponse)
    (elapsed : time.Duration)
    (hsome : ∃ o ∈ outs, o.Duration ≤ 1000000 * time.Second) :
    ∃ s, mainSummary numRequest outs elapsed = .ok s
      ∧ (∃ o ∈ outs, s.Fastest = o.Duration)
      ∧ ∀ o ∈ outs, s.Fastest ≤ o.Duration := by
  obtain ⟨w, hw, hwle⟩ := hsome
  have hne : outs ≠ [] := List.ne_nil_of_mem hw
  refine ⟨_, mainSummary_ok numRequest outs elapsed hne, ?_, ?_⟩
  · simp only [aggregate_fastest]
    obtain ⟨_, hlb, hmem⟩ := foldl_fastestStep_spec outs (1000000 * time.Second)
    rcases hmem with hinit | hex
    · refine ⟨w, hw, le_antisymm (hlb w hw) ?_⟩
      rw [hinit]
      exact hwle
    · exact hex
  · intro o ho
    simp only [aggregate_fastest]
    exact (foldl_fastestStep_spec outs _).2.1 o ho

theorem fastest_is_minimum_witness :
    ∃ s, mainSummary 3 [⟨1, 0, 27, 12⟩, ⟨0, 1, 0, 7⟩, ⟨1, 0, 27, 9⟩] time.Second = .ok s
      ∧ (∃ o ∈ [(⟨1, 0, 27, 12⟩ : HTTPResponse), ⟨0, 1, 0, 7⟩, ⟨1, 0, 27, 9⟩],
          s.Fastest = o.Duration)
      ∧ ∀ o ∈ [(⟨1, 0, 27, 12⟩ : HTTPResponse), ⟨0, 1, 0, 7⟩, ⟨1, 0, 27, 9⟩],
          s.Fastest ≤ o.Duration :=
  fastest_is_minimum 3 [⟨1, 0, 27, 12⟩, ⟨0, 1, 0, 7⟩, ⟨1, 0, 27, 9⟩] time.Second
    ⟨⟨0, 1, 0, 7⟩, by decide, by decide⟩

/-! ## Complete runs collect one outcome per request -/

theorem RunInv_start (numRequest threads : Int) (s0 : RunState)
    (h : start threads = .ok s0) : RunInv numRequest s0 := by
  unfold start at h
  split at h
  · cases h
  · cases h
    refine ⟨rfl, le_refl _, le_max_right _ _, by simp, ?_⟩
    intro hc
    cases hc

theorem apiCall_length (r : DoResult) (since : time.Duration) (ch : List HTTPResponse) :
    (apiCall r since ch).length = ch.length + 1 := by
  cases r <;> simp [apiCall]

theorem RunInv_step (numRequest threads : Int) (s s1 : RunState) (e : Event)
    (hinv : RunInv numRequest s) (h : step numRequest threads s e = some s1) :
    RunInv numRequest s1 := by
  obtain ⟨hwg, h0, hmax, hsum, hclosed⟩ := hinv
  cases e with
  | dispatch =>
    simp only [step] at h
    split at h
    · rename_i hi
      cases h
      refine ⟨by simp [hwg], by simp only; omega, ?_, by simp only; push_cast; omega, ?_⟩
      · simp only
        have := le_max_left numRequest 0
        omega
      · intro hc
        have := hclosed hc
        omega
    · cases h
  | finish r since =>
    simp only [step] at h
    split at h
    · cases h
    · rename_i hpos
      split at h
      · cases h
        refine ⟨by simp [hwg], h0, hmax, ?_, ?_⟩
        · simp only [apiCall_length]
          push_cast
          omega
        · intro hc
          have := hclosed hc
          omega
      · split at h
        · cases h
          refine ⟨by simp [hwg], h0, hmax, ?_, ?_⟩
          · simp only [List.length_append, apiCall_length, List.length_nil]
            push_cast
            omega
          · intro hc
            have := hclosed hc
            omega
        · cases h
  | receive =>
    simp only [step] at h
    split at h
    · cases h
    · rename_i data rest hch
      cases h
      refine ⟨hwg, h0, hmax, ?_, hclosed⟩
      simp only [List.length_append, List.length_singleton]
      rw [hch, List.length_cons] at hsum
      push_cast at hsum ⊢
      omega
  | close =>
    simp only [step] at h
    split at h
    · rename_i hcl
      cases h
      refine ⟨hwg, h0, hmax, hsum, ?_⟩
      intro _
      obtain ⟨hi, hw, _⟩ := hcl
      constructor
      · simp only
        omega
      · simp only
        omega
    · cases h

theorem RunInv_run (numRequest threads : Int) (schedule : List Event) (s s1 : RunState)
    (hinv : RunInv numRequest s) (h : run numRequest threads s schedule = some s1) :
    RunInv numRequest s1 := by
  induction schedule generalizing s with
  | nil =>
    simp only [run] at h
    cases h
    exact hinv
  | cons e es ih =>
    simp only [run] at h
    cases hstep : step numRequest threads s e with
    | none => simp [hstep] at h
    | some s2 =>
      simp only [hstep, Option.some_bind] at h
      exact ih s2 (RunInv_step numRequest threads s s2 e hinv hstep) h

/-- When a run is complete, the slice delivered on line 76 holds exactly one
outcome per request of the dispatch loop. -/
theorem outArr_length (numRequest : Int) (s : RunState) (out : List HTTPResponse)
    (hinv : RunInv numRequest s) (h : outArr s = some out) :
    (out.length : Int) = max numRequest 0 := by
  obtain ⟨_, h0, hmax, hsum, hclosed⟩ := hinv
  unfold outArr at h
  split at h
  · rename_i hc
    cases h
    obtain ⟨hN, hfl⟩ := hclosed hc.1
    rw [hc.2, hfl] at hsum
    simp only [List.length_nil] at hsum
    have hle := le_max_left numRequest 0
    push_cast at hsum
    omega
  · cases h


/-! ## Two schedules: full fan-out, and one request at a time -/

theorem run_replicate_dispatch (numRequest threads : Int) (k : Nat) (s : RunState)
    (hi : s.i + k ≤ numRequest) :
    run numRequest threads s (List.replicate k Event.dispatch)
      = some { s with i := s.i + k, wg := s.wg + k, inFlight := s.inFlight + k } := by
  induction k generalizing s with
  | zero => simp [run]
  | succ k ih =>
    have hlt : s.i < numRequest := by push_cast at hi; omega
    simp only [List.replicate_succ, run, step, hlt, if_true, Option.some_bind]
    rw [ih]
    · simp only [Option.some.injEq, RunState.mk.injEq, and_true, true_and]
      push_cast
      omega
    · simp only
      push_cast at hi ⊢
      omega

/-- With any channel size `threads ≥ 0`, the dispatch loop can run to its end
before any executor completes: all `N` executors are then in flight at the
same time. -/
theorem dispatch_all_in_flight (N : Nat) (threads : Int) (hC : 0 ≤ threads) :
    ∃ s0 s, start threads = .ok s0
      ∧ run N threads s0 (List.replicate N Event.dispatch) = some s
      ∧ s.inFlight = N := by
  have hneg : ¬ threads < 0 := by omega
  have hstart : start threads
      = .ok { i := 0, wg := 0, inFlight := 0, ch := [], res := [], closed := false } := by
    simp only [start, hneg, if_false]
  refine ⟨_, _, hstart, run_replicate_dispatch N threads N _ (by simp), ?_⟩
  simp

theorem run_seqEvents (numRequest threads : Int)
    (rs : List (DoResult × time.Duration)) (s : RunState)
    (hch : s.ch = []) (hfl : s.inFlight = 0) (hwg : s.wg = 0) (hcl : s.closed = false)
    (hi : s.i + rs.length = numRequest) :
    run numRequest threads s (seqEvents threads rs)
      = some { s with i := numRequest
                      res := s.res ++ rs.map (fun p => apiCallResponse p.1 p.2)
                      closed := true } := by
  induction rs generalizing s with
  | nil =>
    obtain ⟨i, wg, fl, ch, res, cl⟩ := s
    simp only at hch hfl hwg hcl hi
    subst hch hfl hwg hcl
    simp only [List.length_nil, Nat.cast_zero, add_zero] at hi
    subst hi
    simp [seqEvents, run, step]
  | cons p rest ih =>
    obtain ⟨i, wg, fl, ch, res, cl⟩ := s
    simp only at hch hfl hwg hcl hi
    subst hch hfl hwg hcl
    simp only [List.length_cons] at hi
    push_cast at hi
    have hlt : i < numRequest := by omega
    obtain ⟨r, since⟩ := p
    have hsend : apiCall r since [] = [apiCallResponse r since] := by
      cases r <;> rfl
    by_cases hpos : 0 < threads
    · simp only [seqEvents, hpos, if_true, run, step, hlt, Option.some_bind, zero_add,
        one_ne_zero, if_false, List.length_nil, Nat.cast_zero, hsend]
      rw [ih _ rfl rfl rfl rfl (by simp only; omega)]
      simp
    · have hzero : ¬ ((0 : Int) < threads) := hpos
      simp only [seqEvents, hpos, if_false, run, step, hlt, if_true, Option.some_bind,
        zero_add, one_ne_zero, List.length_nil, Nat.cast_zero, hzero, hsend]
      rw [ih _ rfl rfl rfl rfl (by simp only; omega)]
      simp

/-- `main` terminates: for every `N`, every channel size `threads ≥ 0` and
every sequence of `N` transport results, the one-at-a-time schedule is a
complete run of `main`, which ends with the result of lines 77-108 on the `N`
outcomes in that order. -/
theorem main_seqEvents (threads : Int) (rs : List (DoResult × time.Duration))
    (elapsed : time.Duration) (hC : 0 ≤ threads) :
    main rs.length threads (seqEvents threads rs) elapsed
      = some (mainSummary rs.length (rs.map (fun p => apiCallResponse p.1 p.2)) elapsed) := by
  have hneg : ¬ threads < 0 := by omega
  simp only [main, start, hneg, if_false]
  rw [run_seqEvents rs.length threads rs _ rfl rfl rfl rfl (by simp)]
  simp [outArr]


/-! ## The collected slice is the sequence of sent outcomes -/

theorem apiCall_eq_append (r : DoResult) (since : time.Duration) (ch : List HTTPResponse) :
    apiCall r since ch = ch ++ apiCall r since [] := by
  cases r <;> simp [apiCall]

theorem step_emitted (numRequest threads : Int) (s s1 : RunState) (e : Event)
    (h : step numRequest threads s e = some s1) :
    s1.res ++ s1.ch = s.res ++ s.ch ++ emitted [e] := by
  cases e with
  | dispatch =>
    simp only [step] at h
    split at h
    · cases h; simp [emitted]
    · cases h
  | finish r since =>
    simp only [step] at h
    split at h
    · cases h
    · split at h
      · cases h
        simp only [emitted, List.append_nil]
        rw [apiCall_eq_append r since s.ch, List.append_assoc]
      · split at h
        · rename_i hch
          cases h
          simp [emitted, hch]
        · cases h
  | receive =>
    simp only [step] at h
    split at h
    · cases h
    · rename_i data rest hch
      cases h
      simp [emitted, hch]
  | close =>
    simp only [step] at h
    split at h
    · cases h; simp [emitted]
    · cases h

theorem emitted_cons (e : Event) (es : List Event) :
    emitted (e :: es) = emitted [e] ++ emitted es := by
  cases e <;> simp [emitted]

theorem run_emitted (numRequest threads : Int) (schedule : List Event) (s s1 : RunState)
    (h : run numRequest threads s schedule = some s1) :
    s1.res ++ s1.ch = s.res ++ s.ch ++ emitted schedule := by
  induction schedule generalizing s with
  | nil =>
    simp only [run] at h
    cases h
    simp [emitted]
  | cons e es ih =>
    simp only [run] at h
    cases hstep : step numRequest threads s e with
    | none => simp [hstep] at h
    | some s2 =>
      simp only [hstep, Option.some_bind] at h
      rw [ih s2 h, step_emitted numRequest threads s s2 e hstep, emitted_cons e es,
        List.append_assoc]

/-- Whatever the schedule, a complete run of `main` with a channel size
`threads ≥ 0` collects exactly the outcomes sent by its executors, one per
request, in the order of the sends, and ends with the result of lines 77-108
on them. -/
theorem main_eq_mainSummary_emitted (numRequest threads : Int) (schedule : List Event)
    (elapsed : time.Duration) (r : Except Panic Summary) (hC : 0 ≤ threads)
    (h : main numRequest threads schedule elapsed = some r) :
    ((emitted schedule).length : Int) = max numRequest 0
      ∧ r = mainSummary numRequest (emitted schedule) elapsed := by
  unfold main at h
  cases hs : start threads with
  | error p =>
    unfold start at hs
    split at hs
    · omega
    · cases hs
  | ok s0 =>
    simp only [hs] at h
    cases hrun : run numRequest threads s0 schedule with
    | none => simp [hrun] at h
    | some s1 =>
      simp only [hrun, Option.some_bind] at h
      cases hout : outArr s1 with
      | none => simp [hout] at h
      | some out =>
        simp only [hout, Option.map_some'] at h
        cases h
        have hinv := RunInv_run numRequest threads schedule s0 s1
          (RunInv_start numRequest threads s0 hs) hrun
        have hlen := outArr_length numRequest s1 out hinv hout
        have hem := run_emitted numRequest threads schedule s0 s1 hrun
        have hs0 : s0.res = [] ∧ s0.ch = [] := by
          unfold start at hs
          split at hs
          · cases hs
          · cases hs
            exact ⟨rfl, rfl⟩
        have hout2 : s1.ch = [] ∧ s1.res = out := by
          unfold outArr at hout
          split at hout
          · rename_i hc
            cases hout
            exact ⟨hc.2, rfl⟩
          · cases hout
        rw [hs0.1, hs0.2, hout2.1, hout2.2] at hem
        simp only [List.append_nil, List.nil_append] at hem
        rw [← hem]
        exact ⟨hlen, rfl⟩

theorem emitted_valid (schedule : List Event) :
    ∀ o ∈ emitted schedule, o.Success + o.Errors = 1 ∧ (o.Success = 0 ∨ o.Success = 1) := by
  induction schedule with
  | nil => simp [emitted]
  | cons e es ih =>
    rw [emitted_cons]
    intro o ho
    rcases List.mem_append.mp ho with h | h
    · cases e with
      | finish r since =>
        cases r with
        | err =>
          simp only [emitted, apiCall, List.nil_append, List.append_nil,
            List.mem_singleton] at h
          subst h
          simp [apiCallResponse]
        | ok res =>
          simp only [emitted, apiCall, List.nil_append, List.append_nil,
            List.mem_singleton] at h
          subst h
          by_cases hst : res.StatusCode = StatusOK <;> simp [apiCallResponse, hst]
      | dispatch => simp [emitted] at h
      | receive => simp [emitted] at h
      | close => simp [emitted] at h
    · exact ih o h

/-- End to end: every complete run of `main` with `1 ≤ numRequest < 2^63`
requests and a channel size `threads ≥ 0` ends with a `Summary` whose
`Success` is `100 * (number of successful outcomes) / numRequest`. -/
theorem main_success_rate (numRequest threads : Int) (schedule : List Event)
    (elapsed : time.Duration) (r : Except Panic Summary) (hC : 0 ≤ threads)
    (hN : 1 ≤ numRequest) (hmax : numRequest < 2 ^ 63)
    (h : main numRequest threads schedule elapsed = some r) :
    ∃ s, r = .ok s
      ∧ s.Requests = numRequest
      ∧ s.Success = F64.fin
          (100 * (((emitted schedule).filter (fun o => decide (o.Success = 1))).length : ℚ)
            / (numRequest : ℚ)) := by
  obtain ⟨hlen, hr⟩ :=
    main_eq_mainSummary_emitted numRequest threads schedule elapsed r hC h
  have hlen2 : ((emitted schedule).length : Int) = numRequest := by
    rw [hlen]
    exact max_eq_left (by omega)
  have hne : emitted schedule ≠ [] := by
    intro h0
    rw [h0] at hlen2
    simp only [List.length_nil, Nat.cast_zero] at hlen2
    omega
  refine ⟨_, hr.trans (mainSummary_ok numRequest _ elapsed hne), hlen2, ?_⟩
  have hvalid := emitted_valid schedule
  have hcount := sum_success_eq_count (emitted schedule) (fun o ho => (hvalid o ho).2)
  have hle : ((emitted schedule).filter (fun o => decide (o.Success = 1))).length
      ≤ (emitted schedule).length := List.length_filter_le _ _
  have hsucc : (aggregate (emitted schedule)).success
      = (((emitted schedule).filter (fun o => decide (o.Success = 1))).length : Int) := by
    rw [aggregate_success, hcount]
    apply wrap64_of_range <;> omega
  simp only [hsucc]
  rw [f64_percent _ _ (by omega)]
  congr 1
  push_cast
  ring

/-! ## Claims about the dispatch of `main` -/

/-- Every complete run with no request to dispatch ends with the panic of
line 105. -/
theorem main_no_request_panics (numRequest threads : Int) (schedule : List Event)
    (elapsed : time.Duration) (r : Except Panic Summary) (hC : 0 ≤ threads)
    (hN : numRequest ≤ 0) (h : main numRequest threads schedule elapsed = some r) :
    r = .error Panic.integerDivideByZero := by
  obtain ⟨hlen, hr⟩ :=
    main_eq_mainSummary_emitted numRequest threads schedule elapsed r hC h
  have hz : ((emitted schedule).length : Int) = 0 := by
    rw [hlen]
    exact max_eq_right hN
  rw [hr]
  simp [mainSummary, hz]

/-- C3, failing input: with `-n 0` and any channel size `threads ≥ 0` no
request is dispatched and no outcome is collected; line 105 divides by
`len(outArr) = 0`. The run that closes the channel at once ends with the
panic "integer divide by zero" instead of a `Summary`, and so does every
other complete run. -/
theorem main_zero_requests_panics (threads : Int) (elapsed : time.Duration)
    (hC : 0 ≤ threads) :
    main 0 threads [Event.close] elapsed = some (.error Panic.integerDivideByZero)
      ∧ ∀ schedule r, main 0 threads schedule elapsed = some r
          → r = .error Panic.integerDivideByZero := by
  have h : ¬ threads < 0 := by omega
  refine ⟨by simp [main, start, h, run, step, outArr, mainSummary], ?_⟩
  intro schedule r hr
  exact main_no_request_panics 0 threads schedule elapsed r hC (le_refl 0) hr

theorem main_zero_requests_panics_witness :
    main 0 100 [Event.close] time.Second = some (.error Panic.integerDivideByZero)
      ∧ ∀ schedule r, main 0 100 schedule time.Second = some r
          → r = .error Panic.integerDivideByZero :=
  main_zero_requests_panics 100 time.Second (by decide)

/-- The dispatch loop never waits: while `i < numRequest` the next iteration
is enabled in every state and puts one more `apiCall` in flight. -/
theorem dispatch_never_blocks (numRequest threads : Int) (s : RunState)
    (hi : s.i < numRequest) :
    ∃ s1, step numRequest threads s Event.dispatch = some s1
      ∧ s1.inFlight = s.inFlight + 1 := by
  simp [step, hi]

/-- C5, failing input: `-n 2 -c 1`. Two iterations of the dispatch loop run
before any `apiCall` completes, and two executors are in flight with a
concurrency setting of 1. -/
theorem dispatch_exceeds_concurrency :
    ∃ s0 s, start 1 = .ok s0
      ∧ run 2 1 s0 [Event.dispatch, Event.dispatch] = some s
      ∧ s.inFlight = 2 ∧ ¬ ((s.inFlight : Int) ≤ 1) := by
  refine ⟨_, _, rfl, rfl, ?_, ?_⟩ <;> decide

/-- C9, counterexample: with `-n 1 -c 0` the channel is unbuffered and the
run proceeds: the request is dispatched, its outcome is handed to the
collecting goroutine, and `main` ends with a `Summary`. -/
theorem zero_concurrency_runs :
    ∃ s0 s1 sum, start 0 = .ok s0
      ∧ step 1 0 s0 Event.dispatch = some s1 ∧ s1.inFlight = 1
      ∧ main 1 0
          [Event.dispatch,
            Event.finish (DoResult.ok ⟨200, List.replicate 27 0⟩) (12 * time.Millisecond),
            Event.close] time.Second = some (.ok sum)
      ∧ sum.Requests = 1 := by
  refine ⟨_, _, _, rfl, rfl, ?_, rfl, ?_⟩ <;> decide

/-- C9, amended: for every configuration with `threads < 0`, `main` fails at
the creation of the channel (line 58) with the panic "makechan: size out of
range", before the dispatch loop: no run state exists in which an `apiCall`
could be started, and whatever the schedule no `Summary` is produced. -/
theorem negative_concurrency_panics (numRequest threads : Int) (schedule : List Event)
    (elapsed : time.Duration) (hC : threads < 0) :
    start threads = .error Panic.makechanSizeOutOfRange
      ∧ main numRequest threads schedule elapsed
          = some (.error Panic.makechanSizeOutOfRange) := by
  simp [main, start, hC]

theorem negative_concurrency_panics_witness :
    start (-1) = .error Panic.makechanSizeOutOfRange
      ∧ main 10 (-1) [Event.dispatch] time.Second
          = some (.error Panic.makechanSizeOutOfRange) :=
  negative_concurrency_panics 10 (-1) [Event.dispatch] time.Second (by decide)


/-! ## Runs in which every call fails -/

theorem emitted_all_err (schedule : List Event)
    (hfail : ∀ r since, Event.finish r since ∈ schedule → r = DoResult.err) :
    ∃ sinces : List time.Duration,
      emitted schedule = sinces.map (apiCallResponse DoResult.err) := by
  induction schedule with
  | nil => exact ⟨[], rfl⟩
  | cons e es ih =>
    obtain ⟨ds, hds⟩ := ih (fun r since hmem => hfail r since (List.mem_cons_of_mem _ hmem))
    cases e with
    | finish r since =>
      have hr := hfail r since (List.mem_cons_self _ _)
      subst hr
      exact ⟨since :: ds, by simp [emitted, apiCall, hds]⟩
    | dispatch => exact ⟨ds, by simp [emitted, hds]⟩
    | receive => exact ⟨ds, by simp [emitted, hds]⟩
    | close => exact ⟨ds, by simp [emitted, hds]⟩

/-- C8: for every `N ≥ 1` and channel size `threads ≥ 0`, when each of the
`N` calls fails at the transport level, every outcome has `Errors = 1` and
`Bytes = 0`; the run that performs the calls one at a time (with whatever
latencies) ends with a `Summary` with `Success = 0`, `Errors = N`,
`Requests = N` and `Bytes = 0`, and so does every other complete run in which
all calls fail. -/
theorem all_transport_failures (N : Nat) (threads : Int) (sinces : List time.Duration)
    (elapsed : time.Duration) (hN : 1 ≤ N) (hmax : (N : Int) < 2 ^ 63)
    (hC : 0 ≤ threads) (hlen : sinces.length = N) :
    (∀ since, (apiCallResponse DoResult.err since).Errors = 1
        ∧ (apiCallResponse DoResult.err since).Bytes = 0)
      ∧ (∃ s, main N threads
              (seqEvents threads (sinces.map (fun since => (DoResult.err, since)))) elapsed
            = some (.ok s)
          ∧ s.Success = F64.fin 0 ∧ s.Errors = N ∧ s.Requests = N ∧ s.Bytes = 0)
      ∧ ∀ schedule r,
          (∀ r0 since, Event.finish r0 since ∈ schedule → r0 = DoResult.err)
          → main N threads schedule elapsed = some r
          → ∃ s, r = .ok s
              ∧ s.Success = F64.fin 0 ∧ s.Errors = N ∧ s.Requests = N ∧ s.Bytes = 0 := by
  refine ⟨fun since => ⟨rfl, rfl⟩, ?_, ?_⟩
  · obtain ⟨s, hs, hfields⟩ := mainSummary_all_err N sinces elapsed hN hmax hlen
    refine ⟨s, ?_, hfields⟩
    have hrun := main_seqEvents threads
      (sinces.map (fun since => (DoResult.err, since))) elapsed hC
    simp only [List.length_map, hlen, List.map_map] at hrun
    rw [hrun]
    exact congrArg some hs
  · intro schedule r hfail hr
    obtain ⟨hl, hsum⟩ := main_eq_mainSummary_emitted N threads schedule elapsed r hC hr
    obtain ⟨ds, hds⟩ := emitted_all_err schedule hfail
    have hdl : ds.length = N := by
      rw [hds, List.length_map] at hl
      have : max (N : Int) 0 = N := max_eq_left (by omega)
      omega
    obtain ⟨s, hs, hfields⟩ := mainSummary_all_err N ds elapsed hN hmax hdl
    exact ⟨s, by rw [hsum, hds, hs], hfields⟩

theorem all_transport_failures_witness :
    (∀ since, (apiCallResponse DoResult.err since).Errors = 1
        ∧ (apiCallResponse DoResult.err since).Bytes = 0)
      ∧ (∃ s, main (10 : Nat) 4
              (seqEvents 4
                (([509000, 4605000, 700000, 812000, 650000, 1200000, 930000, 3100000,
                    2250000, 540000] : List time.Duration).map
                  (fun since => (DoResult.err, since)))) 5960000
            = some (.ok s)
          ∧ s.Success = F64.fin 0 ∧ s.Errors = (10 : Nat) ∧ s.Requests = (10 : Nat)
          ∧ s.Bytes = 0)
      ∧ ∀ schedule r,
          (∀ r0 since, Event.finish r0 since ∈ schedule → r0 = DoResult.err)
          → main (10 : Nat) 4 schedule 5960000 = some r
          → ∃ s, r = .ok s
              ∧ s.Success = F64.fin 0 ∧ s.Errors = (10 : Nat) ∧ s.Requests = (10 : Nat)
              ∧ s.Bytes = 0 :=
  all_transport_failures 10 4
    [509000, 4605000, 700000, 812000, 650000, 1200000, 930000, 3100000, 2250000, 540000]
    5960000 (by decide) (by decide) (by decide) (by decide)

/-! ## Runs that show the defect of lines 86-90 and the placeholder -/

/-- C1, failing input: `-n 2 -c 4`, both calls fail, with latencies 5 ms and
3 ms, and are collected in that order. Each latency is below the current
`fastest`, so the `else` branch of line 88 never runs: the summary has
`Fastest = 3ms` and `Slowest = 0`, below the observed latency 5 ms. -/
theorem slowest_below_observed_latency :
    ∃ s, main 2 4
        [Event.dispatch, Event.dispatch,
          Event.finish DoResult.err (5 * time.Millisecond),
          Event.finish DoResult.err (3 * time.Millisecond),
          Event.receive, Event.receive, Event.close] time.Second = some (.ok s)
      ∧ s.Fastest = 3 * time.Millisecond ∧ s.Slowest = 0
      ∧ ¬ (5 * time.Millisecond ≤ s.Slowest) := by
  refine ⟨_, rfl, ?_, ?_, ?_⟩ <;> decide

/-- C2, failing input: `-n 2 -c 4`, the same two outcomes (failed calls with
latencies 3 ms and 5 ms) sent in the two possible orders. The collected
slices are permutations of each other, and `Slowest` is 5 ms when the 3 ms
outcome arrives first, 0 when it arrives last. -/
theorem slowest_depends_on_arrival_order :
    List.Perm
        (emitted [Event.dispatch, Event.dispatch,
          Event.finish DoResult.err (3 * time.Millisecond),
          Event.finish DoResult.err (5 * time.Millisecond),
          Event.receive, Event.receive, Event.close])
        (emitted [Event.dispatch, Event.dispatch,
          Event.finish DoResult.err (5 * time.Millisecond),
          Event.finish DoResult.err (3 * time.Millisecond),
          Event.receive, Event.receive, Event.close])
      ∧ ∃ s1 s2,
        main 2 4
            [Event.dispatch, Event.dispatch,
              Event.finish DoResult.err (3 * time.Millisecond),
              Event.finish DoResult.err (5 * time.Millisecond),
              Event.receive, Event.receive, Event.close] time.Second = some (.ok s1)
          ∧ main 2 4
            [Event.dispatch, Event.dispatch,
              Event.finish DoResult.err (5 * time.Millisecond),
              Event.finish DoResult.err (3 * time.Millisecond),
              Event.receive, Event.receive, Event.close] time.Second = some (.ok s2)
          ∧ s1.Slowest = 5 * time.Millisecond ∧ s2.Slowest = 0
          ∧ s1.Slowest ≠ s2.Slowest := by
  refine ⟨List.Perm.swap _ _ _, _, _, rfl, rfl, ?_, ?_, ?_⟩ <;> decide

/-- C7, failing input: `-n 1 -c 1`, the call returns status 200 with a body
of 27 bytes after 12 ms. The summary has `Success = 100`, `Bytes = 27` and
`Fastest = 12ms`, but `Slowest = 0`, not 12 ms. -/
theorem single_success_slowest_zero :
    ∃ s, main 1 1
        [Event.dispatch,
          Event.finish (DoResult.ok ⟨200, List.replicate 27 0⟩) (12 * time.Millisecond),
          Event.receive, Event.close] (12 * time.Millisecond) = some (.ok s)
      ∧ s.Success = F64.fin 100 ∧ s.Bytes = 27
      ∧ s.Fastest = 12 * time.Millisecond ∧ s.Slowest = 0
      ∧ s.Fastest ≠ s.Slowest := by
  refine ⟨_, rfl, ?_, ?_, ?_, ?_, ?_⟩
  · have h : (aggregate [apiCallResponse (DoResult.ok ⟨200, List.replicate 27 0⟩)
        (12 * time.Millisecond)]).success = 1 := by decide
    show F64.mul (F64.div (F64.ofInt (aggregate [apiCallResponse
      (DoResult.ok ⟨200, List.replicate 27 0⟩) (12 * time.Millisecond)]).success)
      (F64.ofInt 1)) (F64.fin 100) = F64.fin 100
    simp only [h, F64.ofInt, F64.div, F64.mul]
    norm_num
  · decide
  · decide
  · decide
  · decide

/-- C10, counterexample: `-n 1 -c 1`, the call returns after 2000000 s, above
the initial value of line 78. The test of line 86 fails, `fastest` keeps the
placeholder 1000000 s, which is the latency of no collected outcome. -/
theorem fastest_keeps_placeholder :
    ∃ s, main 1 1
        [Event.dispatch,
          Event.finish (DoResult.ok ⟨200, List.replicate 27 0⟩) (2000000 * time.Second),
          Event.receive, Event.close] (2000000 * time.Second) = some (.ok s)
      ∧ s.Fastest = 1000000 * time.Second
      ∧ ¬ ∃ o ∈ emitted [Event.dispatch,
            Event.finish (DoResult.ok ⟨200, List.replicate 27 0⟩) (2000000 * time.Second),
            Event.receive, Event.close],
          s.Fastest = o.Duration := by
  refine ⟨_, rfl, ?_, ?_⟩ <;> decide

end RequestSummary
